import Mathlib

/-!
Shallow embedding of the Stratos segmentation and chunking engine
(src/chunking/chunker.py, src/chunking/token_counter.py,
src/chunking/metadata_handler.py).

Python strings are modelled as lists of characters (`Str`); the pluggable
tokenizer (tiktoken in the source) is a parameter `enc : Str → Nat`, wrapped
by `TokenCounter.count_tokens` exactly as the source wraps it (empty text
counts 0).  `datetime.now().isoformat()` is modelled as an input `now : Str`
threaded to the places the source stamps it.  Character offsets are integers,
as in Python.
-/

namespace Stratos

/-- Python strings as lists of characters. -/
abbrev Str := List Char

/-- Whitespace for `str.strip()`. -/
def isWS (c : Char) : Bool := c.isWhitespace

/-- The three sentence terminators of the regular expression `[.!?]+`. -/
def isTerm (c : Char) : Bool := c == '.' || c == '!' || c == '?'

/-- Python `str.strip()`, leading half: drop leading whitespace. -/
def trimLeft (s : Str) : Str := s.dropWhile isWS

/-- Python `str.strip()`: drop leading and trailing whitespace. -/
def trim (s : Str) : Str := ((trimLeft s).reverse.dropWhile isWS).reverse

/-- Python `re.split(r'[.!?]+', text)`: the fragments between maximal runs of
terminator characters (a run at either end leaves an empty fragment there,
exactly as `re.split` does). -/
def splitFrags : Str → List Str
  | [] => [[]]
  | c :: cs =>
    let r := splitFrags cs
    if isTerm c then
      if cs.head?.any isTerm then r else [] :: r
    else
      match r with
      | [] => [[c]]
      | f :: fs => (c :: f) :: fs

/-- Python `sentence.endswith(('.', '!', '?'))`. -/
def endsTerm (s : Str) : Bool := s.getLast?.any isTerm

namespace TokenCounter

/-- `TokenCounter.count_tokens` (src/chunking/token_counter.py): empty text
counts 0, otherwise the length of the encoder's token list — the encoder
itself is the external tiktoken encoding, modelled as `enc`. -/
def count_tokens (enc : Str → Nat) (text : Str) : Nat :=
  if text = [] then 0 else enc text

end TokenCounter

open TokenCounter

namespace Chunker

/-- Configuration constant CHUNK_SIZE of src/chunking/chunker.py. -/
def CHUNK_SIZE : Nat := 1000

/-- Configuration constant OVERLAP_SIZE of src/chunking/chunker.py. -/
def OVERLAP_SIZE : Nat := 150

/-- `Chunker._split_into_sentences`: split on runs of `.!?`, strip each
fragment, discard empties, and append `.` to a fragment that does not already
end in a terminator. -/
def split_into_sentences (text : Str) : List Str :=
  (splitFrags text).filterMap fun f =>
    let s := trim f
    if s = [] then none
    else some (if endsTerm s then s else s ++ ['.'])

/-- The backward walk of `Chunker._get_overlap_text`: prepend each sentence
(with a joining space) to the candidate while the candidate stays within the
overlap budget; the first failure stops the walk (`break`). -/
def overlapLoop (enc : Str → Nat) (os : Nat) : List Str → Str → Str
  | [], acc => acc
  | s :: rest, acc =>
    if count_tokens enc (s ++ ' ' :: acc) ≤ os then
      overlapLoop enc os rest (s ++ ' ' :: acc)
    else acc

/-- `Chunker._get_overlap_text`: empty input gives no overlap; otherwise the
stripped result of the backward walk over the chunk's sentences. -/
def get_overlap_text (enc : Str → Nat) (os : Nat) (chunk_text : Str) : Str :=
  if chunk_text = [] then []
  else trim (overlapLoop enc os (split_into_sentences chunk_text).reverse [])

end Chunker

/-- One per-chunk metadata record, the dictionary built by
`MetadataHandler.create_chunk_metadata`. -/
structure ChunkMeta where
  chunk_id : Nat
  chunk_index : Nat
  total_chunks : Nat
  source_page : Nat
  start_position : Int
  end_position : Int
  text_length : Nat
  token_count : Nat
  created_at : Str
  chunk_text_preview : Str
deriving DecidableEq

/-- The run-level summary dictionary of
`MetadataHandler.create_chunking_summary`. -/
structure Summary where
  total_chunks : Nat
  total_tokens : Nat
  total_characters : Nat
  chunk_size : Nat
  overlap_size : Nat
  source_pages : Nat
  average_tokens_per_chunk : ℚ
  average_characters_per_chunk : ℚ
  created_at : Str
deriving DecidableEq

namespace MetadataHandler

/-- `MetadataHandler.create_chunk_metadata`; `now` models
`datetime.now().isoformat()`. -/
def create_chunk_metadata (chunk_id : Nat) (chunk_text : Str) (source_page : Nat)
    (start_pos end_pos : Int) (token_count chunk_index total_chunks : Nat)
    (now : Str) : ChunkMeta :=
  { chunk_id := chunk_id
    chunk_index := chunk_index
    total_chunks := total_chunks
    source_page := source_page
    start_position := start_pos
    end_position := end_pos
    text_length := chunk_text.length
    token_count := token_count
    created_at := now
    chunk_text_preview :=
      if 100 < chunk_text.length then chunk_text.take 100 ++ "...".toList
      else chunk_text }

/-- `MetadataHandler.create_chunking_summary`; `now` models
`datetime.now().isoformat()`. -/
def create_chunking_summary (total_chunks total_tokens total_characters
    chunk_size overlap_size source_pages : Nat) (now : Str) : Summary :=
  { total_chunks := total_chunks
    total_tokens := total_tokens
    total_characters := total_characters
    chunk_size := chunk_size
    overlap_size := overlap_size
    source_pages := source_pages
    average_tokens_per_chunk :=
      if 0 < total_chunks then (total_tokens : ℚ) / total_chunks else 0
    average_characters_per_chunk :=
      if 0 < total_chunks then (total_characters : ℚ) / total_chunks else 0
    created_at := now }

end MetadataHandler

namespace Chunker

open MetadataHandler

/-- The mutable locals of `Chunker._chunk_text`'s sentence loop: chunk id and
index counters, the accumulating chunk, its running token count, and the local
character cursor. -/
structure Acc where
  chunk_id : Nat
  chunk_index : Nat
  cur : Str
  toks : Nat
  lsp : Int

/-- Finalizing the accumulator inside `Chunker._chunk_text`: strip the text,
record its metadata, and reseed the accumulator with the overlap tail,
advancing the cursor to `previous_end - len(overlap)`. -/
def finalizeAcc (enc : Str → Nat) (os pn : Nat) (gs : Int) (now : Str)
    (a : Acc) : Str × ChunkMeta × Acc :=
  let ct := trim a.cur
  let md := create_chunk_metadata a.chunk_id ct pn (gs + a.lsp)
      (gs + (a.lsp + ct.length)) a.toks a.chunk_index 0 now
  let ov := get_overlap_text enc os a.cur
  (ct, md,
    { chunk_id := a.chunk_id + 1
      chunk_index := a.chunk_index + 1
      cur := ov
      toks := count_tokens enc ov
      lsp := (a.lsp + ct.length) - ov.length })

/-- Step 4 of the loop: `current_chunk += sentence; current_tokens +=
sentence_tokens` (concatenation, no separator). -/
def appendSentence (enc : Str → Nat) (s : Str) (a : Acc) : Acc :=
  { a with cur := a.cur ++ s, toks := a.toks + count_tokens enc s }

/-- The sentence loop of `Chunker._chunk_text`: when adding the next sentence
would exceed the chunk budget and the accumulator is non-empty, finalize the
accumulator (emitting a chunk and its metadata) before appending; the sentence
is then appended unconditionally. -/
def chunkLoop (enc : Str → Nat) (cs os pn : Nat) (gs : Int) (now : Str) :
    List Str → Acc → List Str × List ChunkMeta × Acc
  | [], a => ([], [], a)
  | s :: rest, a =>
    if cs < a.toks + count_tokens enc s ∧ a.cur ≠ [] then
      let f := finalizeAcc enc os pn gs now a
      let r := chunkLoop enc cs os pn gs now rest (appendSentence enc s f.2.2)
      (f.1 :: r.1, f.2.1 :: r.2.1, r.2.2)
    else
      chunkLoop enc cs os pn gs now rest (appendSentence enc s a)

/-- The initial loop state of `Chunker._chunk_text`: empty accumulator, zero
tokens, local cursor 0, ids starting at `start_chunk_id` with
`chunk_index = chunk_id - 1`. -/
def initAcc (startId : Nat) : Acc :=
  { chunk_id := startId, chunk_index := startId - 1, cur := [], toks := 0, lsp := 0 }

/-- `Chunker._chunk_text`: split into sentences, run the loop, emit the
remaining accumulator when its stripped text is non-empty, and compute the
carryover for the next page from the final accumulator. -/
def chunk_text (enc : Str → Nat) (cs os : Nat) (text : Str) (pn startId : Nat)
    (gs : Int) (now : Str) : List Str × List ChunkMeta × Str :=
  let r := chunkLoop enc cs os pn gs now (split_into_sentences text) (initAcc startId)
  let carry := if r.2.2.cur ≠ [] then get_overlap_text enc os r.2.2.cur else []
  if trim r.2.2.cur ≠ [] then
    let f := finalizeAcc enc os pn gs now r.2.2
    (r.1 ++ [f.1], r.2.1 ++ [f.2.1], carry)
  else
    (r.1, r.2.1, carry)

end Chunker

/-- One input page as `Chunker.chunk_pages` reads it: `page_number` and
`normalized_text`. -/
structure Page where
  page_number : Nat
  normalized_text : Str

/-- The mutable locals of `Chunker.chunk_pages`'s page loop. -/
structure RunState where
  all_chunks : List Str
  metadata : List ChunkMeta
  chunk_id : Nat
  global_pos : Int
  carryover : Str

/-- The full output of a chunking run. -/
structure RunResult where
  chunks : List Str
  metadata : List ChunkMeta
  summary : Summary

namespace Chunker

open MetadataHandler

/-- Initial state of the page loop: `chunk_id = 1`, `global_char_position =
0`, empty carryover. -/
def initState : RunState :=
  { all_chunks := [], metadata := [], chunk_id := 1, global_pos := 0, carryover := [] }

/-- One iteration of the page loop of `Chunker.chunk_pages`: a page whose text
strips to nothing is skipped; otherwise the carryover is prefixed, the
combined text is chunked at offset `global_char_position - len(carryover)`,
and the state advances. -/
def pageStep (enc : Str → Nat) (cs os : Nat) (now : Str) (st : RunState)
    (page : Page) : RunState :=
  if trim page.normalized_text = [] then st
  else
    let r := chunk_text enc cs os (st.carryover ++ page.normalized_text)
        page.page_number st.chunk_id (st.global_pos - st.carryover.length) now
    { all_chunks := st.all_chunks ++ r.1
      metadata := st.metadata ++ r.2.1
      chunk_id := st.chunk_id + r.1.length
      global_pos := st.global_pos + page.normalized_text.length
      carryover := r.2.2 }

/-- The page loop of `Chunker.chunk_pages` as a fold over the pages. -/
def runState (enc : Str → Nat) (cs os : Nat) (now : Str) (pages : List Page) :
    RunState :=
  pages.foldl (pageStep enc cs os now) initState

/-- `Chunker.chunk_pages`: run the page loop, backfill `total_chunks` into
every metadata record, and build the summary. -/
def chunk_pages (enc : Str → Nat) (cs os : Nat) (now : Str)
    (pages : List Page) : RunResult :=
  let st := runState enc cs os now pages
  let total := st.all_chunks.length
  { chunks := st.all_chunks
    metadata := st.metadata.map fun m => { m with total_chunks := total }
    summary := create_chunking_summary total
        ((st.metadata.map (·.token_count)).sum)
        ((st.metadata.map (·.text_length)).sum) cs os pages.length now }

end Chunker

/-! ### Basic facts about the token-counter wrapper and `trim` -/

@[simp]
lemma count_tokens_nil (enc : Str → Nat) : TokenCounter.count_tokens enc [] = 0 := rfl

lemma count_tokens_ne_nil (enc : Str → Nat) {t : Str} (h : t ≠ []) :
    TokenCounter.count_tokens enc t = enc t := if_neg h

@[simp]
lemma trim_nil : trim [] = [] := rfl

lemma dropWhile_isWS_shape (l : Str) :
    l.dropWhile isWS = [] ∨
      ∃ c t, l.dropWhile isWS = c :: t ∧ isWS c = false := by
  induction l with
  | nil => exact Or.inl rfl
  | cons c t ih =>
    rw [List.dropWhile_cons]
    by_cases h : isWS c
    · simpa [h] using ih
    · exact Or.inr ⟨c, t, by simp [h], by simp [h]⟩

lemma trim_shape (s : Str) :
    trim s = [] ∨
      ((∃ c t, trim s = c :: t ∧ isWS c = false) ∧
        (∃ t c, trim s = t ++ [c] ∧ isWS c = false)) := by
  rcases dropWhile_isWS_shape (trimLeft s).reverse with hY | ⟨c, t, hY, hc⟩
  · exact Or.inl (by simp [trim, hY])
  · right
    have htrim : trim s = t.reverse ++ [c] := by simp [trim, hY]
    constructor
    · -- head of the trimmed string: the last element of the kept run,
      -- which is the head of `trimLeft s`, a non-whitespace character
      have hsuf : (trimLeft s).reverse.dropWhile isWS <:+ (trimLeft s).reverse :=
        List.dropWhile_suffix isWS
      obtain ⟨u, hu⟩ := hsuf
      have hlast : (c :: t).getLast? = (trimLeft s).head? := by
        rw [← List.getLast?_reverse (trimLeft s), ← hu, ← hY,
          List.getLast?_append_of_ne_nil u (by rw [hY]; exact List.cons_ne_nil c t)]
      rcases dropWhile_isWS_shape s with hX | ⟨c', t', hX, hc'⟩
      · exfalso
        rw [show trimLeft s = [] from hX] at hY
        simp at hY
      · have hX' : trimLeft s = c' :: t' := hX
        rw [hX'] at hlast
        have hhead : (trim s).head? = some c' := by
          rw [trim, hY, List.head?_reverse]
          simpa using hlast
        cases hts : trim s with
        | nil => rw [hts] at hhead; simp at hhead
        | cons d u =>
          rw [hts] at hhead
          simp at hhead
          exact ⟨d, u, rfl, hhead ▸ hc'⟩
    · exact ⟨t.reverse, c, htrim, hc⟩

lemma trim_eq_self_of {s : Str}
    (h1 : ∃ c t, s = c :: t ∧ isWS c = false)
    (h2 : ∃ t c, s = t ++ [c] ∧ isWS c = false) : trim s = s := by
  have hL : trimLeft s = s := by
    obtain ⟨c, t, hs, hc⟩ := h1
    rw [hs]
    simp [trimLeft, List.dropWhile_cons, hc]
  obtain ⟨t0, c0, hs0, hc0⟩ := h2
  rw [trim, hL, hs0]
  simp [List.dropWhile_cons, hc0]

lemma trim_trim (s : Str) : trim (trim s) = trim s := by
  rcases trim_shape s with h | ⟨h1, h2⟩
  · rw [h]; rfl
  · exact trim_eq_self_of h1 h2

/-! ### Facts about the sentence splitter -/

namespace Chunker

lemma mem_split_shape {t s : Str} (h : s ∈ split_into_sentences t) :
    ∃ f, f ∈ splitFrags t ∧ trim f ≠ [] ∧
      s = (if endsTerm (trim f) then trim f else trim f ++ ['.']) := by
  unfold split_into_sentences at h
  obtain ⟨f, hf, he⟩ := List.mem_filterMap.1 h
  change (if trim f = [] then none
    else some (if endsTerm (trim f) then trim f else trim f ++ ['.'])) = some s at he
  by_cases hz : trim f = []
  · rw [if_pos hz] at he
    exact absurd he (by simp)
  · rw [if_neg hz] at he
    exact ⟨f, hf, hz, (Option.some.inj he).symm⟩

lemma sentence_props {t s : Str} (h : s ∈ split_into_sentences t) :
    trim s = s ∧ s ≠ [] ∧ ∃ c, s.getLast? = some c ∧ isTerm c = true := by
  obtain ⟨f, _, hz, hs⟩ := mem_split_shape h
  rcases trim_shape f with hcontr | ⟨hhead, hlast⟩
  · exact absurd hcontr hz
  by_cases he : endsTerm (trim f) = true
  · rw [he] at hs
    simp only [if_true] at hs
    subst hs
    refine ⟨trim_trim f, hz, ?_⟩
    unfold endsTerm at he
    cases hgl : (trim f).getLast? with
    | none => rw [hgl] at he; simp [Option.any] at he
    | some c =>
      rw [hgl] at he
      exact ⟨c, rfl, by simpa [Option.any] using he⟩
  · rw [if_neg (by simpa using he)] at hs
    subst hs
    refine ⟨?_, by simp, '.', List.getLast?_concat _, rfl⟩
    apply trim_eq_self_of
    · obtain ⟨c, u, hcu, hc⟩ := hhead
      exact ⟨c, u ++ ['.'], by rw [hcu]; rfl, hc⟩
    · exact ⟨trim f, '.', rfl, by decide⟩

/-! ### The overlap computation: budget bound and greedy characterization -/

lemma overlapLoop_le (enc : Str → Nat) (os : Nat) :
    ∀ (r : List Str) (acc : Str),
      TokenCounter.count_tokens enc acc ≤ os →
      TokenCounter.count_tokens enc (overlapLoop enc os r acc) ≤ os := by
  intro r
  induction r with
  | nil => intro acc h; exact h
  | cons s rest ih =>
    intro acc h
    unfold overlapLoop
    by_cases hc : TokenCounter.count_tokens enc (s ++ ' ' :: acc) ≤ os
    · simpa [hc] using ih _ hc
    · simpa [hc] using h

lemma get_overlap_le (enc : Str → Nat) (os : Nat) (ct : Str)
    (htrim : ∀ x, TokenCounter.count_tokens enc (trim x) ≤
      TokenCounter.count_tokens enc x) :
    TokenCounter.count_tokens enc (get_overlap_text enc os ct) ≤ os := by
  unfold get_overlap_text
  by_cases h : ct = []
  · rw [if_pos h]
    simp
  · rw [if_neg h]
    exact le_trans (htrim _) (overlapLoop_le enc os _ [] (by simp))

/-- Trailing sentences re-joined with a single space after each: the shape of
the overlap candidate the backward walk builds. -/
def tailJoin (l : List Str) : Str := l.foldr (fun s a => s ++ ' ' :: a) []

/-- The candidate the backward walk reaches after accepting the listed
sentences (in walk order) on top of `acc`. -/
def pileUp (l : List Str) (acc : Str) : Str :=
  l.foldl (fun a s => s ++ ' ' :: a) acc

lemma pileUp_nil (acc : Str) : pileUp [] acc = acc := rfl

lemma pileUp_cons (s : Str) (l : List Str) (acc : Str) :
    pileUp (s :: l) acc = pileUp l (s ++ ' ' :: acc) := rfl

lemma tailJoin_cons (s : Str) (l : List Str) :
    tailJoin (s :: l) = s ++ ' ' :: tailJoin l := rfl

lemma foldr_tailJoin (c : Str) :
    ∀ l : List Str, l.foldr (fun s a => s ++ ' ' :: a) c = tailJoin l ++ c := by
  intro l
  induction l with
  | nil => rfl
  | cons s l ih => simp [tailJoin_cons, ih, List.foldr_cons]

lemma tailJoin_concat (l : List Str) (x : Str) :
    tailJoin (l ++ [x]) = tailJoin l ++ (x ++ [' ']) := by
  unfold tailJoin
  rw [List.foldr_append]
  exact foldr_tailJoin _ l

lemma pileUp_eq (l : List Str) (acc : Str) :
    pileUp l acc = tailJoin l.reverse ++ acc := by
  induction l generalizing acc with
  | nil => simp [pileUp, tailJoin]
  | cons s l ih =>
    rw [pileUp_cons, ih, List.reverse_cons, tailJoin_concat]
    simp

lemma overlapLoop_greedy (enc : Str → Nat) (os : Nat) :
    ∀ (r : List Str) (acc : Str),
      ∃ j, j ≤ r.length ∧
        overlapLoop enc os r acc = pileUp (r.take j) acc ∧
        (j = r.length ∨
          os < TokenCounter.count_tokens enc (pileUp (r.take (j + 1)) acc)) ∧
        (j = 0 ∨ TokenCounter.count_tokens enc (pileUp (r.take j) acc) ≤ os) := by
  intro r
  induction r with
  | nil => intro acc; exact ⟨0, Nat.le_refl 0, rfl, Or.inl rfl, Or.inl rfl⟩
  | cons s rest ih =>
    intro acc
    by_cases hc : TokenCounter.count_tokens enc (s ++ ' ' :: acc) ≤ os
    · obtain ⟨j, hj, he, hb, hok⟩ := ih (s ++ ' ' :: acc)
      refine ⟨j + 1, by simpa using Nat.succ_le_succ hj, ?_, ?_, ?_⟩
      · rw [show overlapLoop enc os (s :: rest) acc =
            overlapLoop enc os rest (s ++ ' ' :: acc) from by
              simp [overlapLoop, hc]]
        rw [List.take_succ_cons, pileUp_cons]
        exact he
      · rcases hb with h | h
        · exact Or.inl (by simp [h])
        · right
          rw [List.take_succ_cons, pileUp_cons]
          exact h
      · right
        rw [List.take_succ_cons, pileUp_cons]
        rcases hok with h | h
        · subst h
          simpa [pileUp_nil] using hc
        · exact h
    · refine ⟨0, Nat.zero_le _, by simp [overlapLoop, hc, pileUp_nil], ?_, Or.inl rfl⟩
      right
      rw [List.take_succ_cons]
      simpa [pileUp_cons, pileUp_nil] using Nat.lt_of_not_le hc

end Chunker

/-! ### Unfolding lemmas for the window builder -/

namespace MetadataHandler

@[simp]
lemma create_chunk_metadata_chunk_id {i : Nat} {ct : Str} {pg : Nat} {sp ep : Int}
    {tk ix tc : Nat} {now : Str} :
    (create_chunk_metadata i ct pg sp ep tk ix tc now).chunk_id = i := rfl

@[simp]
lemma create_chunk_metadata_chunk_index {i : Nat} {ct : Str} {pg : Nat} {sp ep : Int}
    {tk ix tc : Nat} {now : Str} :
    (create_chunk_metadata i ct pg sp ep tk ix tc now).chunk_index = ix := rfl

@[simp]
lemma create_chunk_metadata_token_count {i : Nat} {ct : Str} {pg : Nat} {sp ep : Int}
    {tk ix tc : Nat} {now : Str} :
    (create_chunk_metadata i ct pg sp ep tk ix tc now).token_count = tk := rfl

@[simp]
lemma create_chunk_metadata_text_length {i : Nat} {ct : Str} {pg : Nat} {sp ep : Int}
    {tk ix tc : Nat} {now : Str} :
    (create_chunk_metadata i ct pg sp ep tk ix tc now).text_length = ct.length := rfl

@[simp]
lemma create_chunk_metadata_start_position {i : Nat} {ct : Str} {pg : Nat} {sp ep : Int}
    {tk ix tc : Nat} {now : Str} :
    (create_chunk_metadata i ct pg sp ep tk ix tc now).start_position = sp := rfl

@[simp]
lemma create_chunk_metadata_end_position {i : Nat} {ct : Str} {pg : Nat} {sp ep : Int}
    {tk ix tc : Nat} {now : Str} :
    (create_chunk_metadata i ct pg sp ep tk ix tc now).end_position = ep := rfl

@[simp]
lemma create_chunk_metadata_created_at {i : Nat} {ct : Str} {pg : Nat} {sp ep : Int}
    {tk ix tc : Nat} {now : Str} :
    (create_chunk_metadata i ct pg sp ep tk ix tc now).created_at = now := rfl

end MetadataHandler

namespace Chunker

open MetadataHandler

@[simp]
lemma finalizeAcc_fst {enc : Str → Nat} {os pn : Nat} {gs : Int} {now : Str} {a : Acc} :
    (finalizeAcc enc os pn gs now a).1 = trim a.cur := rfl

@[simp]
lemma finalizeAcc_md {enc : Str → Nat} {os pn : Nat} {gs : Int} {now : Str} {a : Acc} :
    (finalizeAcc enc os pn gs now a).2.1 =
      create_chunk_metadata a.chunk_id (trim a.cur) pn (gs + a.lsp)
        (gs + (a.lsp + (trim a.cur).length)) a.toks a.chunk_index 0 now := rfl

@[simp]
lemma finalizeAcc_acc {enc : Str → Nat} {os pn : Nat} {gs : Int} {now : Str} {a : Acc} :
    (finalizeAcc enc os pn gs now a).2.2 =
      { chunk_id := a.chunk_id + 1
        chunk_index := a.chunk_index + 1
        cur := get_overlap_text enc os a.cur
        toks := TokenCounter.count_tokens enc (get_overlap_text enc os a.cur)
        lsp := (a.lsp + (trim a.cur).length) -
          (get_overlap_text enc os a.cur).length } := rfl

@[simp]
lemma appendSentence_def {enc : Str → Nat} {s : Str} {a : Acc} :
    appendSentence enc s a =
      { chunk_id := a.chunk_id
        chunk_index := a.chunk_index
        cur := a.cur ++ s
        toks := a.toks + TokenCounter.count_tokens enc s
        lsp := a.lsp } := rfl

lemma chunkLoop_nil {enc : Str → Nat} {cs os pn : Nat} {gs : Int} {now : Str} {a : Acc} :
    chunkLoop enc cs os pn gs now [] a = ([], [], a) := rfl

lemma chunkLoop_cons_pos {enc : Str → Nat} {cs os pn : Nat} {gs : Int} {now : Str}
    {s : Str} {rest : List Str} {a : Acc}
    (h : cs < a.toks + TokenCounter.count_tokens enc s ∧ a.cur ≠ []) :
    chunkLoop enc cs os pn gs now (s :: rest) a =
      ((finalizeAcc enc os pn gs now a).1 ::
          (chunkLoop enc cs os pn gs now rest
            (appendSentence enc s (finalizeAcc enc os pn gs now a).2.2)).1,
        (finalizeAcc enc os pn gs now a).2.1 ::
          (chunkLoop enc cs os pn gs now rest
            (appendSentence enc s (finalizeAcc enc os pn gs now a).2.2)).2.1,
        (chunkLoop enc cs os pn gs now rest
          (appendSentence enc s (finalizeAcc enc os pn gs now a).2.2)).2.2) := by
  rw [chunkLoop, if_pos h]

lemma chunkLoop_cons_neg {enc : Str → Nat} {cs os pn : Nat} {gs : Int} {now : Str}
    {s : Str} {rest : List Str} {a : Acc}
    (h : ¬(cs < a.toks + TokenCounter.count_tokens enc s ∧ a.cur ≠ [])) :
    chunkLoop enc cs os pn gs now (s :: rest) a =
      chunkLoop enc cs os pn gs now rest (appendSentence enc s a) := by
  rw [chunkLoop, if_neg h]

@[simp]
lemma initAcc_chunk_id {startId : Nat} : (initAcc startId).chunk_id = startId := rfl

@[simp]
lemma initAcc_chunk_index {startId : Nat} :
    (initAcc startId).chunk_index = startId - 1 := rfl

@[simp]
lemma initAcc_cur {startId : Nat} : (initAcc startId).cur = [] := rfl

@[simp]
lemma initAcc_toks {startId : Nat} : (initAcc startId).toks = 0 := rfl

@[simp]
lemma initAcc_lsp {startId : Nat} : (initAcc startId).lsp = 0 := rfl

lemma chunk_text_spec_pos {enc : Str → Nat} {cs os : Nat} {text : Str}
    {pn startId : Nat} {gs : Int} {now : Str}
    (h : trim (chunkLoop enc cs os pn gs now (split_into_sentences text)
      (initAcc startId)).2.2.cur ≠ []) :
    chunk_text enc cs os text pn startId gs now =
      ((chunkLoop enc cs os pn gs now (split_into_sentences text)
          (initAcc startId)).1 ++
        [(finalizeAcc enc os pn gs now (chunkLoop enc cs os pn gs now
          (split_into_sentences text) (initAcc startId)).2.2).1],
        (chunkLoop enc cs os pn gs now (split_into_sentences text)
          (initAcc startId)).2.1 ++
        [(finalizeAcc enc os pn gs now (chunkLoop enc cs os pn gs now
          (split_into_sentences text) (initAcc startId)).2.2).2.1],
        if (chunkLoop enc cs os pn gs now (split_into_sentences text)
            (initAcc startId)).2.2.cur ≠ [] then
          get_overlap_text enc os (chunkLoop enc cs os pn gs now
            (split_into_sentences text) (initAcc startId)).2.2.cur
        else []) := by
  unfold chunk_text
  rw [if_pos h]

lemma chunk_text_spec_neg {enc : Str → Nat} {cs os : Nat} {text : Str}
    {pn startId : Nat} {gs : Int} {now : Str}
    (h : ¬ trim (chunkLoop enc cs os pn gs now (split_into_sentences text)
      (initAcc startId)).2.2.cur ≠ []) :
    chunk_text enc cs os text pn startId gs now =
      ((chunkLoop enc cs os pn gs now (split_into_sentences text)
          (initAcc startId)).1,
        (chunkLoop enc cs os pn gs now (split_into_sentences text)
          (initAcc startId)).2.1,
        if (chunkLoop enc cs os pn gs now (split_into_sentences text)
            (initAcc startId)).2.2.cur ≠ [] then
          get_overlap_text enc os (chunkLoop enc cs os pn gs now
            (split_into_sentences text) (initAcc startId)).2.2.cur
        else []) := by
  unfold chunk_text
  rw [if_neg h]

/-! ### Chunk ids and indices through the loop (claim C3 machinery) -/

lemma range'_concat (s n : Nat) :
    List.range' s n ++ [s + n] = List.range' s (n + 1) := by
  rw [show n + 1 = 1 + n from Nat.add_comm n 1, ← List.range'_append_1,
    List.range'_one]

lemma chunkLoop_ids (enc : Str → Nat) (cs os pn : Nat) (gs : Int) (now : Str) :
    ∀ (ss : List Str) (a : Acc), a.chunk_id = a.chunk_index + 1 →
      ((chunkLoop enc cs os pn gs now ss a).2.1.map (·.chunk_id) =
        List.range' a.chunk_id (chunkLoop enc cs os pn gs now ss a).2.1.length) ∧
      ((chunkLoop enc cs os pn gs now ss a).2.2.chunk_id =
        a.chunk_id + (chunkLoop enc cs os pn gs now ss a).2.1.length) ∧
      ((chunkLoop enc cs os pn gs now ss a).1.length =
        (chunkLoop enc cs os pn gs now ss a).2.1.length) ∧
      ((chunkLoop enc cs os pn gs now ss a).2.2.chunk_id =
        (chunkLoop enc cs os pn gs now ss a).2.2.chunk_index + 1) ∧
      (∀ m ∈ (chunkLoop enc cs os pn gs now ss a).2.1,
        m.chunk_id = m.chunk_index + 1) := by
  intro ss
  induction ss with
  | nil =>
    intro a ha
    simp [chunkLoop_nil, ha]
  | cons s rest ih =>
    intro a ha
    by_cases h : cs < a.toks + TokenCounter.count_tokens enc s ∧ a.cur ≠ []
    · rw [chunkLoop_cons_pos h]
      obtain ⟨h1, h2, h3, h4, h5⟩ :=
        ih (appendSentence enc s (finalizeAcc enc os pn gs now a).2.2)
          (by simp [ha])
      have hseed_id :
          (appendSentence enc s (finalizeAcc enc os pn gs now a).2.2).chunk_id =
            a.chunk_id + 1 := by simp
      rw [hseed_id] at h1 h2
      refine ⟨?_, ?_, ?_, h4, ?_⟩
      · simp only [List.map_cons, List.length_cons, finalizeAcc_md,
          MetadataHandler.create_chunk_metadata_chunk_id]
        rw [List.range'_succ, h1]
      · simp only [List.length_cons]
        rw [h2]
        omega
      · simp only [List.length_cons]
        rw [h3]
      · intro m hm
        rcases List.mem_cons.1 hm with rfl | hm
        · simp [ha]
        · exact h5 m hm
    · rw [chunkLoop_cons_neg h]
      exact ih _ (by simp [ha])

lemma chunk_text_ids (enc : Str → Nat) (cs os : Nat) (text : Str)
    (pn startId : Nat) (gs : Int) (now : Str) (hid : 1 ≤ startId) :
    ((chunk_text enc cs os text pn startId gs now).2.1.map (·.chunk_id) =
      List.range' startId (chunk_text enc cs os text pn startId gs now).2.1.length) ∧
    ((chunk_text enc cs os text pn startId gs now).1.length =
      (chunk_text enc cs os text pn startId gs now).2.1.length) ∧
    (∀ m ∈ (chunk_text enc cs os text pn startId gs now).2.1,
      m.chunk_id = m.chunk_index + 1) := by
  obtain ⟨h1, h2, h3, h4, h5⟩ :=
    chunkLoop_ids enc cs os pn gs now (split_into_sentences text)
      (initAcc startId) (by simp; omega)
  simp only [initAcc_chunk_id] at h1 h2
  by_cases hrem : trim (chunkLoop enc cs os pn gs now (split_into_sentences text)
      (initAcc startId)).2.2.cur ≠ []
  · rw [chunk_text_spec_pos hrem]
    refine ⟨?_, ?_, ?_⟩
    · simp only [List.map_append, List.length_append, List.map_cons,
        List.map_nil, List.length_cons, List.length_nil]
      rw [h1, finalizeAcc_md, MetadataHandler.create_chunk_metadata_chunk_id, h2,
        range'_concat]
    · simp only [List.length_append, List.length_cons, List.length_nil]
      rw [h3]
    · intro m hm
      rcases List.mem_append.1 hm with hm | hm
      · exact h5 m hm
      · rcases List.mem_singleton.1 hm with rfl
        simpa using h4
  · rw [chunk_text_spec_neg hrem]
    exact ⟨h1, h3, h5⟩

/-! ### The page loop as an invariant-preserving fold -/

lemma foldl_pageStep_inv (enc : Str → Nat) (cs os : Nat) (now : Str)
    (Inv : RunState → Prop)
    (hstep : ∀ st p, Inv st → Inv (pageStep enc cs os now st p)) :
    ∀ (pages : List Page) (st : RunState), Inv st →
      Inv (pages.foldl (pageStep enc cs os now) st) := by
  intro pages
  induction pages with
  | nil => intro st h; exact h
  | cons p ps ih => intro st h; exact ih _ (hstep _ _ h)

lemma pageStep_blank {enc : Str → Nat} {cs os : Nat} {now : Str} {st : RunState}
    {p : Page} (h : trim p.normalized_text = []) :
    pageStep enc cs os now st p = st := by
  unfold pageStep
  rw [if_pos h]

lemma pageStep_live {enc : Str → Nat} {cs os : Nat} {now : Str} {st : RunState}
    {p : Page} (h : ¬ trim p.normalized_text = []) :
    pageStep enc cs os now st p =
      { all_chunks := st.all_chunks ++ (chunk_text enc cs os
          (st.carryover ++ p.normalized_text) p.page_number st.chunk_id
          (st.global_pos - st.carryover.length) now).1
        metadata := st.metadata ++ (chunk_text enc cs os
          (st.carryover ++ p.normalized_text) p.page_number st.chunk_id
          (st.global_pos - st.carryover.length) now).2.1
        chunk_id := st.chunk_id + (chunk_text enc cs os
          (st.carryover ++ p.normalized_text) p.page_number st.chunk_id
          (st.global_pos - st.carryover.length) now).1.length
        global_pos := st.global_pos + p.normalized_text.length
        carryover := (chunk_text enc cs os
          (st.carryover ++ p.normalized_text) p.page_number st.chunk_id
          (st.global_pos - st.carryover.length) now).2.2 } := by
  unfold pageStep
  rw [if_neg h]

lemma runState_ids (enc : Str → Nat) (cs os : Nat) (now : Str)
    (pages : List Page) :
    (runState enc cs os now pages).chunk_id =
      (runState enc cs os now pages).metadata.length + 1 ∧
    (runState enc cs os now pages).metadata.map (·.chunk_id) =
      List.range' 1 (runState enc cs os now pages).metadata.length ∧
    (runState enc cs os now pages).all_chunks.length =
      (runState enc cs os now pages).metadata.length ∧
    ∀ m ∈ (runState enc cs os now pages).metadata,
      m.chunk_id = m.chunk_index + 1 := by
  unfold runState
  apply foldl_pageStep_inv enc cs os now
    (fun st => st.chunk_id = st.metadata.length + 1 ∧
      st.metadata.map (·.chunk_id) = List.range' 1 st.metadata.length ∧
      st.all_chunks.length = st.metadata.length ∧
      ∀ m ∈ st.metadata, m.chunk_id = m.chunk_index + 1)
  · intro st p hInv
    by_cases hb : trim p.normalized_text = []
    · rw [pageStep_blank hb]
      exact hInv
    · rw [pageStep_live hb]
      obtain ⟨hA, hB, hC, hD⟩ := hInv
      obtain ⟨g1, g2, g3⟩ := chunk_text_ids enc cs os
        (st.carryover ++ p.normalized_text) p.page_number st.chunk_id
        (st.global_pos - st.carryover.length) now (by omega)
      refine ⟨?_, ?_, ?_, ?_⟩
      · simp only [List.length_append]
        rw [g2] at *
        omega
      · simp only [List.map_append, List.length_append]
        rw [hB, g1, hA]
        rw [show st.metadata.length + 1 = 1 + st.metadata.length from
          Nat.add_comm _ 1, List.range'_append_1]
        congr 1
        omega
      · simp only [List.length_append]
        omega
      · intro m hm
        rcases List.mem_append.1 hm with hm | hm
        · exact hD m hm
        · exact g3 m hm
  · simp [initState]

lemma map_backfill {α : Type} (f : ChunkMeta → α) (total : Nat)
    (hf : ∀ m : ChunkMeta, f { m with total_chunks := total } = f m)
    (l : List ChunkMeta) :
    (l.map fun m => { m with total_chunks := total }).map f = l.map f := by
  rw [List.map_map]
  exact List.map_congr_left fun m _ => hf m

lemma chunk_pages_chunks (enc : Str → Nat) (cs os : Nat) (now : Str)
    (pages : List Page) :
    (chunk_pages enc cs os now pages).chunks =
      (runState enc cs os now pages).all_chunks := rfl

lemma chunk_pages_metadata (enc : Str → Nat) (cs os : Nat) (now : Str)
    (pages : List Page) :
    (chunk_pages enc cs os now pages).metadata =
      (runState enc cs os now pages).metadata.map
        (fun m => { m with
          total_chunks := (runState enc cs os now pages).all_chunks.length }) := rfl

/-- C3: over any full run the emitted `chunk_id`s are exactly 1, 2, 3, … in
emission order with no gaps (also across page boundaries), every record's
`chunk_index` equals `chunk_id - 1`, and chunks and metadata are in
one-to-one correspondence. -/
theorem chunk_ids_consecutive (enc : Str → Nat) (cs os : Nat) (now : Str)
    (pages : List Page) :
    (chunk_pages enc cs os now pages).metadata.map (·.chunk_id) =
      List.range' 1 (chunk_pages enc cs os now pages).metadata.length ∧
    (chunk_pages enc cs os now pages).metadata.map (·.chunk_index) =
      (chunk_pages enc cs os now pages).metadata.map (fun m => m.chunk_id - 1) ∧
    (chunk_pages enc cs os now pages).chunks.length =
      (chunk_pages enc cs os now pages).metadata.length := by
  obtain ⟨hA, hB, hC, hD⟩ := runState_ids enc cs os now pages
  rw [chunk_pages_metadata, chunk_pages_chunks]
  refine ⟨?_, ?_, ?_⟩
  · rw [map_backfill _ _ (fun m => rfl), List.length_map, hB]
  · rw [map_backfill _ _ (fun m => rfl), map_backfill _ _ (fun m => rfl)]
    exact List.map_congr_left fun m hm => by have := hD m hm; omega
  · rw [List.length_map, hC]

/-! ### Positions and text lengths through the loop (claim C2 machinery) -/

lemma chunkLoop_positions (enc : Str → Nat) (cs os pn : Nat) (gs : Int)
    (now : Str) :
    ∀ (ss : List Str) (a : Acc),
      ((chunkLoop enc cs os pn gs now ss a).2.1.map (·.text_length) =
        (chunkLoop enc cs os pn gs now ss a).1.map List.length) ∧
      (∀ m ∈ (chunkLoop enc cs os pn gs now ss a).2.1,
        m.end_position - m.start_position = (m.text_length : Int)) := by
  intro ss
  induction ss with
  | nil => intro a; simp [chunkLoop_nil]
  | cons s rest ih =>
    intro a
    by_cases h : cs < a.toks + TokenCounter.count_tokens enc s ∧ a.cur ≠ []
    · rw [chunkLoop_cons_pos h]
      obtain ⟨h1, h2⟩ := ih (appendSentence enc s (finalizeAcc enc os pn gs now a).2.2)
      refine ⟨?_, ?_⟩
      · simp only [List.map_cons, finalizeAcc_md, finalizeAcc_fst,
          MetadataHandler.create_chunk_metadata_text_length]
        rw [h1]
      · intro m hm
        rcases List.mem_cons.1 hm with rfl | hm
        · simp only [finalizeAcc_md,
            MetadataHandler.create_chunk_metadata_start_position,
            MetadataHandler.create_chunk_metadata_end_position,
            MetadataHandler.create_chunk_metadata_text_length]
          omega
        · exact h2 m hm
    · rw [chunkLoop_cons_neg h]
      exact ih _

lemma chunk_text_positions (enc : Str → Nat) (cs os : Nat) (text : Str)
    (pn startId : Nat) (gs : Int) (now : Str) :
    ((chunk_text enc cs os text pn startId gs now).2.1.map (·.text_length) =
      (chunk_text enc cs os text pn startId gs now).1.map List.length) ∧
    (∀ m ∈ (chunk_text enc cs os text pn startId gs now).2.1,
      m.end_position - m.start_position = (m.text_length : Int)) := by
  obtain ⟨h1, h2⟩ := chunkLoop_positions enc cs os pn gs now
    (split_into_sentences text) (initAcc startId)
  by_cases hrem : trim (chunkLoop enc cs os pn gs now (split_into_sentences text)
      (initAcc startId)).2.2.cur ≠ []
  · rw [chunk_text_spec_pos hrem]
    refine ⟨?_, ?_⟩
    · simp only [List.map_append, List.map_cons, List.map_nil, finalizeAcc_md,
        finalizeAcc_fst, MetadataHandler.create_chunk_metadata_text_length]
      rw [h1]
    · intro m hm
      rcases List.mem_append.1 hm with hm | hm
      · exact h2 m hm
      · rcases List.mem_singleton.1 hm with rfl
        simp only [finalizeAcc_md,
          MetadataHandler.create_chunk_metadata_start_position,
          MetadataHandler.create_chunk_metadata_end_position,
          MetadataHandler.create_chunk_metadata_text_length]
        omega
  · rw [chunk_text_spec_neg hrem]
    exact ⟨h1, h2⟩

lemma runState_positions (enc : Str → Nat) (cs os : Nat) (now : Str)
    (pages : List Page) :
    ((runState enc cs os now pages).metadata.map (·.text_length) =
      (runState enc cs os now pages).all_chunks.map List.length) ∧
    (∀ m ∈ (runState enc cs os now pages).metadata,
      m.end_position - m.start_position = (m.text_length : Int)) := by
  unfold runState
  apply foldl_pageStep_inv enc cs os now
    (fun st => (st.metadata.map (·.text_length) = st.all_chunks.map List.length) ∧
      ∀ m ∈ st.metadata, m.end_position - m.start_position = (m.text_length : Int))
  · intro st p hInv
    by_cases hb : trim p.normalized_text = []
    · rw [pageStep_blank hb]
      exact hInv
    · rw [pageStep_live hb]
      obtain ⟨hA, hB⟩ := hInv
      obtain ⟨g1, g2⟩ := chunk_text_positions enc cs os
        (st.carryover ++ p.normalized_text) p.page_number st.chunk_id
        (st.global_pos - st.carryover.length) now
      refine ⟨?_, ?_⟩
      · simp only [List.map_append]
        rw [hA, g1]
      · intro m hm
        rcases List.mem_append.1 hm with hm | hm
        · exact hB m hm
        · exact g2 m hm
  · simp [initState]

/-- C2 (amended): every metadata record's `text_length` is the length of the
corresponding chunk's text, and `end_position - start_position` equals
`text_length` for every record.  (The monotonicity half of the original claim
is refuted separately.) -/
theorem chunk_positions_span_text (enc : Str → Nat) (cs os : Nat) (now : Str)
    (pages : List Page) :
    (chunk_pages enc cs os now pages).metadata.map (·.text_length) =
      (chunk_pages enc cs os now pages).chunks.map List.length ∧
    (chunk_pages enc cs os now pages).metadata.map
        (fun m => m.end_position - m.start_position) =
      (chunk_pages enc cs os now pages).metadata.map
        (fun m => (m.text_length : Int)) := by
  obtain ⟨hA, hB⟩ := runState_positions enc cs os now pages
  rw [chunk_pages_metadata, chunk_pages_chunks]
  refine ⟨?_, ?_⟩
  · rw [map_backfill _ _ (fun m => rfl), hA]
  · rw [map_backfill _ _ (fun m => rfl), map_backfill _ _ (fun m => rfl)]
    exact List.map_congr_left fun m hm => hB m hm

/-! ### Token-budget bound through the loop (claim C1 machinery) -/

lemma chunkLoop_budget (enc : Str → Nat) (cs os pn : Nat) (gs : Int) (now : Str)
    (hsub : ∀ x y, TokenCounter.count_tokens enc (x ++ y) ≤
      TokenCounter.count_tokens enc x + TokenCounter.count_tokens enc y)
    (htrim : ∀ x, TokenCounter.count_tokens enc (trim x) ≤
      TokenCounter.count_tokens enc x) :
    ∀ (ss : List Str) (a : Acc),
      (∀ s ∈ ss, TokenCounter.count_tokens enc s ≤ cs) →
      a.toks ≤ cs + os →
      (a.cur = [] → a.toks = 0) →
      TokenCounter.count_tokens enc a.cur ≤ a.toks →
      (∀ m ∈ (chunkLoop enc cs os pn gs now ss a).2.1,
        m.token_count ≤ cs + os) ∧
      (∀ c ∈ (chunkLoop enc cs os pn gs now ss a).1,
        TokenCounter.count_tokens enc c ≤ cs + os) ∧
      ((chunkLoop enc cs os pn gs now ss a).2.2.toks ≤ cs + os) ∧
      ((chunkLoop enc cs os pn gs now ss a).2.2.cur = [] →
        (chunkLoop enc cs os pn gs now ss a).2.2.toks = 0) ∧
      (TokenCounter.count_tokens enc (chunkLoop enc cs os pn gs now ss a).2.2.cur ≤
        (chunkLoop enc cs os pn gs now ss a).2.2.toks) := by
  intro ss
  induction ss with
  | nil =>
    intro a _ h1 h2 h3
    simp only [chunkLoop_nil]
    exact ⟨by simp, by simp, h1, h2, h3⟩
  | cons s rest ih =>
    intro a hsent htoks hempty hcnt
    have hs : TokenCounter.count_tokens enc s ≤ cs := hsent s (List.mem_cons_self s rest)
    have hsent' : ∀ x ∈ rest, TokenCounter.count_tokens enc x ≤ cs :=
      fun x hx => hsent x (List.mem_cons_of_mem s hx)
    by_cases h : cs < a.toks + TokenCounter.count_tokens enc s ∧ a.cur ≠ []
    · rw [chunkLoop_cons_pos h]
      have hov : TokenCounter.count_tokens enc (get_overlap_text enc os a.cur) ≤ os :=
        get_overlap_le enc os a.cur htrim
      obtain ⟨i1, i2, i3, i4, i5⟩ :=
        ih (appendSentence enc s (finalizeAcc enc os pn gs now a).2.2)
          hsent'
          (by simp only [appendSentence_def, finalizeAcc_acc]; omega)
          (by
            simp only [appendSentence_def, finalizeAcc_acc]
            intro hnil
            rcases List.append_eq_nil.1 hnil with ⟨hov0, hs0⟩
            rw [hov0, hs0]
            simp)
          (by
            simp only [appendSentence_def, finalizeAcc_acc]
            exact hsub _ _)
      refine ⟨?_, ?_, i3, i4, i5⟩
      · intro m hm
        rcases List.mem_cons.1 hm with rfl | hm
        · simpa using htoks
        · exact i1 m hm
      · intro c hc
        rcases List.mem_cons.1 hc with rfl | hc
        · simp only [finalizeAcc_fst]
          exact le_trans (htrim _) (le_trans hcnt htoks)
        · exact i2 c hc
    · rw [chunkLoop_cons_neg h]
      have hng : a.toks + TokenCounter.count_tokens enc s ≤ cs ∨ a.cur = [] := by
        by_cases hcur : a.cur = []
        · exact Or.inr hcur
        · left
          by_contra hlt
          exact h ⟨by omega, hcur⟩
      apply ih
      · exact hsent'
      · simp only [appendSentence_def]
        rcases hng with hng | hng
        · omega
        · have := hempty hng
          omega
      · simp only [appendSentence_def]
        intro hnil
        rcases List.append_eq_nil.1 hnil with ⟨ha0, hs0⟩
        rw [hs0]
        have := hempty ha0
        simp [this]
      · simp only [appendSentence_def]
        exact le_trans (hsub _ _) (by omega)

lemma chunk_text_budget (enc : Str → Nat) (cs os : Nat) (text : Str)
    (pn startId : Nat) (gs : Int) (now : Str)
    (hsub : ∀ x y, TokenCounter.count_tokens enc (x ++ y) ≤
      TokenCounter.count_tokens enc x + TokenCounter.count_tokens enc y)
    (htrim : ∀ x, TokenCounter.count_tokens enc (trim x) ≤
      TokenCounter.count_tokens enc x)
    (hsent : ∀ s ∈ split_into_sentences text,
      TokenCounter.count_tokens enc s ≤ cs) :
    (∀ m ∈ (chunk_text enc cs os text pn startId gs now).2.1,
      m.token_count ≤ cs + os) ∧
    (∀ c ∈ (chunk_text enc cs os text pn startId gs now).1,
      TokenCounter.count_tokens enc c ≤ cs + os) := by
  obtain ⟨i1, i2, i3, i4, i5⟩ := chunkLoop_budget enc cs os pn gs now hsub htrim
    (split_into_sentences text) (initAcc startId) hsent (by simp) (by simp) (by simp)
  by_cases hrem : trim (chunkLoop enc cs os pn gs now (split_into_sentences text)
      (initAcc startId)).2.2.cur ≠ []
  · rw [chunk_text_spec_pos hrem]
    refine ⟨?_, ?_⟩
    · intro m hm
      rcases List.mem_append.1 hm with hm | hm
      · exact i1 m hm
      · rcases List.mem_singleton.1 hm with rfl
        simpa using i3
    · intro c hc
      rcases List.mem_append.1 hc with hc | hc
      · exact i2 c hc
      · rcases List.mem_singleton.1 hc with rfl
        simp only [finalizeAcc_fst]
        exact le_trans (htrim _) (le_trans i5 i3)
  · rw [chunk_text_spec_neg hrem]
    exact ⟨i1, i2⟩

lemma runState_budget (enc : Str → Nat) (cs os : Nat) (now : Str)
    (pages : List Page)
    (hsent : ∀ t : Str, ∀ s ∈ split_into_sentences t,
      TokenCounter.count_tokens enc s ≤ cs)
    (hsub : ∀ x y, TokenCounter.count_tokens enc (x ++ y) ≤
      TokenCounter.count_tokens enc x + TokenCounter.count_tokens enc y)
    (htrim : ∀ x, TokenCounter.count_tokens enc (trim x) ≤
      TokenCounter.count_tokens enc x) :
    (∀ m ∈ (runState enc cs os now pages).metadata, m.token_count ≤ cs + os) ∧
    (∀ c ∈ (runState enc cs os now pages).all_chunks,
      TokenCounter.count_tokens enc c ≤ cs + os) := by
  unfold runState
  apply foldl_pageStep_inv enc cs os now
    (fun st => (∀ m ∈ st.metadata, m.token_count ≤ cs + os) ∧
      ∀ c ∈ st.all_chunks, TokenCounter.count_tokens enc c ≤ cs + os)
  · intro st p hInv
    by_cases hb : trim p.normalized_text = []
    · rw [pageStep_blank hb]
      exact hInv
    · rw [pageStep_live hb]
      obtain ⟨hA, hB⟩ := hInv
      obtain ⟨g1, g2⟩ := chunk_text_budget enc cs os
        (st.carryover ++ p.normalized_text) p.page_number st.chunk_id
        (st.global_pos - st.carryover.length) now hsub htrim (hsent _)
      refine ⟨?_, ?_⟩
      · intro m hm
        rcases List.mem_append.1 hm with hm | hm
        · exact hA m hm
        · exact g1 m hm
      · intro c hc
        rcases List.mem_append.1 hc with hc | hc
        · exact hB c hc
        · exact g2 c hc
  · simp [initState]

/-! ### Recorded token counts as exact counts for additive counters
(claim C7 machinery) -/

lemma chunkLoop_exact (enc : Str → Nat) (cs os pn : Nat) (gs : Int) (now : Str)
    (hadd : ∀ x y, TokenCounter.count_tokens enc (x ++ y) =
      TokenCounter.count_tokens enc x + TokenCounter.count_tokens enc y)
    (htr : ∀ x, TokenCounter.count_tokens enc (trim x) =
      TokenCounter.count_tokens enc x) :
    ∀ (ss : List Str) (a : Acc),
      a.toks = TokenCounter.count_tokens enc a.cur →
      ((chunkLoop enc cs os pn gs now ss a).2.1.map (·.token_count) =
        (chunkLoop enc cs os pn gs now ss a).1.map
          (TokenCounter.count_tokens enc)) ∧
      ((chunkLoop enc cs os pn gs now ss a).2.2.toks =
        TokenCounter.count_tokens enc (chunkLoop enc cs os pn gs now ss a).2.2.cur) := by
  intro ss
  induction ss with
  | nil =>
    intro a ha
    simp [chunkLoop_nil, ha]
  | cons s rest ih =>
    intro a ha
    by_cases h : cs < a.toks + TokenCounter.count_tokens enc s ∧ a.cur ≠ []
    · rw [chunkLoop_cons_pos h]
      obtain ⟨i1, i2⟩ :=
        ih (appendSentence enc s (finalizeAcc enc os pn gs now a).2.2)
          (by
            simp only [appendSentence_def, finalizeAcc_acc]
            rw [hadd])
      refine ⟨?_, i2⟩
      simp only [List.map_cons, finalizeAcc_md, finalizeAcc_fst,
        MetadataHandler.create_chunk_metadata_token_count]
      rw [i1, ha, htr]
    · rw [chunkLoop_cons_neg h]
      apply ih
      simp only [appendSentence_def]
      rw [hadd, ha]

lemma chunk_text_exact (enc : Str → Nat) (cs os : Nat) (text : Str)
    (pn startId : Nat) (gs : Int) (now : Str)
    (hadd : ∀ x y, TokenCounter.count_tokens enc (x ++ y) =
      TokenCounter.count_tokens enc x + TokenCounter.count_tokens enc y)
    (htr : ∀ x, TokenCounter.count_tokens enc (trim x) =
      TokenCounter.count_tokens enc x) :
    (chunk_text enc cs os text pn startId gs now).2.1.map (·.token_count) =
      (chunk_text enc cs os text pn startId gs now).1.map
        (TokenCounter.count_tokens enc) := by
  obtain ⟨i1, i2⟩ := chunkLoop_exact enc cs os pn gs now hadd htr
    (split_into_sentences text) (initAcc startId) (by simp)
  by_cases hrem : trim (chunkLoop enc cs os pn gs now (split_into_sentences text)
      (initAcc startId)).2.2.cur ≠ []
  · rw [chunk_text_spec_pos hrem]
    simp only [List.map_append, List.map_cons, List.map_nil, finalizeAcc_md,
      finalizeAcc_fst, MetadataHandler.create_chunk_metadata_token_count]
    rw [i1, i2, htr]
  · rw [chunk_text_spec_neg hrem]
    exact i1

lemma runState_exact (enc : Str → Nat) (cs os : Nat) (now : Str)
    (pages : List Page)
    (hadd : ∀ x y, TokenCounter.count_tokens enc (x ++ y) =
      TokenCounter.count_tokens enc x + TokenCounter.count_tokens enc y)
    (htr : ∀ x, TokenCounter.count_tokens enc (trim x) =
      TokenCounter.count_tokens enc x) :
    (runState enc cs os now pages).metadata.map (·.token_count) =
      (runState enc cs os now pages).all_chunks.map
        (TokenCounter.count_tokens enc) := by
  unfold runState
  apply foldl_pageStep_inv enc cs os now
    (fun st => st.metadata.map (·.token_count) =
      st.all_chunks.map (TokenCounter.count_tokens enc))
  · intro st p hInv
    by_cases hb : trim p.normalized_text = []
    · rw [pageStep_blank hb]
      exact hInv
    · rw [pageStep_live hb]
      simp only [List.map_append]
      rw [hInv, chunk_text_exact enc cs os _ _ _ _ _ hadd htr]
  · simp [initState]

end Chunker

/-! ### Timestamp handling (claim C5 machinery) -/

/-- A metadata record with its `created_at` timestamp blanked. -/
def eraseTime (m : ChunkMeta) : ChunkMeta := { m with created_at := [] }

/-- A summary with its `created_at` timestamp blanked. -/
def eraseSummaryTime (s : Summary) : Summary := { s with created_at := [] }

namespace MetadataHandler

@[simp]
lemma eraseTime_create {i : Nat} {ct : Str} {pg : Nat} {sp ep : Int}
    {tk ix tc : Nat} {now : Str} :
    eraseTime (create_chunk_metadata i ct pg sp ep tk ix tc now) =
      create_chunk_metadata i ct pg sp ep tk ix tc [] := rfl

@[simp]
lemma eraseSummaryTime_create {a b c d e f : Nat} {now : Str} :
    eraseSummaryTime (create_chunking_summary a b c d e f now) =
      create_chunking_summary a b c d e f [] := rfl

end MetadataHandler

lemma map_proj_eraseTime {α : Type} (f : ChunkMeta → α)
    (hf : ∀ m, f (eraseTime m) = f m) (l : List ChunkMeta) :
    (l.map eraseTime).map f = l.map f := by
  rw [List.map_map]
  exact List.map_congr_left fun m _ => hf m

namespace Chunker

open MetadataHandler

lemma chunk_pages_summary (enc : Str → Nat) (cs os : Nat) (now : Str)
    (pages : List Page) :
    (chunk_pages enc cs os now pages).summary =
      create_chunking_summary (runState enc cs os now pages).all_chunks.length
        (((runState enc cs os now pages).metadata.map (·.token_count)).sum)
        (((runState enc cs os now pages).metadata.map (·.text_length)).sum)
        cs os pages.length now := rfl

lemma chunkLoop_time (enc : Str → Nat) (cs os pn : Nat) (gs : Int)
    (now now' : Str) :
    ∀ (ss : List Str) (a : Acc),
      ((chunkLoop enc cs os pn gs now ss a).1 =
        (chunkLoop enc cs os pn gs now' ss a).1) ∧
      ((chunkLoop enc cs os pn gs now ss a).2.1.map eraseTime =
        (chunkLoop enc cs os pn gs now' ss a).2.1.map eraseTime) ∧
      ((chunkLoop enc cs os pn gs now ss a).2.2 =
        (chunkLoop enc cs os pn gs now' ss a).2.2) := by
  intro ss
  induction ss with
  | nil => intro a; exact ⟨rfl, rfl, rfl⟩
  | cons s rest ih =>
    intro a
    by_cases h : cs < a.toks + TokenCounter.count_tokens enc s ∧ a.cur ≠ []
    · rw [chunkLoop_cons_pos h, chunkLoop_cons_pos h,
        show appendSentence enc s (finalizeAcc enc os pn gs now' a).2.2 =
          appendSentence enc s (finalizeAcc enc os pn gs now a).2.2 from rfl]
      obtain ⟨i1, i2, i3⟩ :=
        ih (appendSentence enc s (finalizeAcc enc os pn gs now a).2.2)
      refine ⟨?_, ?_, i3⟩
      · simp only [finalizeAcc_fst]
        exact congrArg _ i1
      · simp only [List.map_cons, finalizeAcc_md, eraseTime_create]
        exact congrArg _ i2
    · rw [chunkLoop_cons_neg h, chunkLoop_cons_neg h]
      exact ih _

lemma chunk_text_time (enc : Str → Nat) (cs os : Nat) (text : Str)
    (pn startId : Nat) (gs : Int) (now now' : Str) :
    ((chunk_text enc cs os text pn startId gs now).1 =
      (chunk_text enc cs os text pn startId gs now').1) ∧
    ((chunk_text enc cs os text pn startId gs now).2.1.map eraseTime =
      (chunk_text enc cs os text pn startId gs now').2.1.map eraseTime) ∧
    ((chunk_text enc cs os text pn startId gs now).2.2 =
      (chunk_text enc cs os text pn startId gs now').2.2) := by
  obtain ⟨i1, i2, i3⟩ := chunkLoop_time enc cs os pn gs now now'
    (split_into_sentences text) (initAcc startId)
  by_cases hrem : trim (chunkLoop enc cs os pn gs now (split_into_sentences text)
      (initAcc startId)).2.2.cur ≠ []
  · have hrem' : trim (chunkLoop enc cs os pn gs now' (split_into_sentences text)
        (initAcc startId)).2.2.cur ≠ [] := by rw [← i3]; exact hrem
    rw [chunk_text_spec_pos hrem, chunk_text_spec_pos hrem']
    refine ⟨?_, ?_, ?_⟩
    · simp only [finalizeAcc_fst]
      rw [i1, i3]
    · simp only [List.map_append, List.map_cons, List.map_nil, finalizeAcc_md,
        eraseTime_create]
      rw [i2, i3]
    · rw [i3]
  · have hrem' : ¬ trim (chunkLoop enc cs os pn gs now' (split_into_sentences text)
        (initAcc startId)).2.2.cur ≠ [] := by rw [← i3]; exact hrem
    rw [chunk_text_spec_neg hrem, chunk_text_spec_neg hrem']
    exact ⟨i1, i2, by rw [i3]⟩

lemma foldl_pageStep_time (enc : Str → Nat) (cs os : Nat) (now now' : Str) :
    ∀ (pages : List Page) (st st' : RunState),
      st.all_chunks = st'.all_chunks →
      st.metadata.map eraseTime = st'.metadata.map eraseTime →
      st.chunk_id = st'.chunk_id →
      st.global_pos = st'.global_pos →
      st.carryover = st'.carryover →
      ((pages.foldl (pageStep enc cs os now) st).all_chunks =
        (pages.foldl (pageStep enc cs os now') st').all_chunks) ∧
      ((pages.foldl (pageStep enc cs os now) st).metadata.map eraseTime =
        (pages.foldl (pageStep enc cs os now') st').metadata.map eraseTime) ∧
      ((pages.foldl (pageStep enc cs os now) st).chunk_id =
        (pages.foldl (pageStep enc cs os now') st').chunk_id) ∧
      ((pages.foldl (pageStep enc cs os now) st).global_pos =
        (pages.foldl (pageStep enc cs os now') st').global_pos) ∧
      ((pages.foldl (pageStep enc cs os now) st).carryover =
        (pages.foldl (pageStep enc cs os now') st').carryover) := by
  intro pages
  induction pages with
  | nil => intro st st' h1 h2 h3 h4 h5; exact ⟨h1, h2, h3, h4, h5⟩
  | cons p ps ih =>
    intro st st' h1 h2 h3 h4 h5
    simp only [List.foldl_cons]
    have hstep :
        (pageStep enc cs os now st p).all_chunks =
          (pageStep enc cs os now' st' p).all_chunks ∧
        (pageStep enc cs os now st p).metadata.map eraseTime =
          (pageStep enc cs os now' st' p).metadata.map eraseTime ∧
        (pageStep enc cs os now st p).chunk_id =
          (pageStep enc cs os now' st' p).chunk_id ∧
        (pageStep enc cs os now st p).global_pos =
          (pageStep enc cs os now' st' p).global_pos ∧
        (pageStep enc cs os now st p).carryover =
          (pageStep enc cs os now' st' p).carryover := by
      by_cases hb : trim p.normalized_text = []
      · rw [pageStep_blank hb, pageStep_blank hb]
        exact ⟨h1, h2, h3, h4, h5⟩
      · rw [pageStep_live hb, pageStep_live hb, ← h3, ← h4, ← h5]
        obtain ⟨t1, t2, t3⟩ := chunk_text_time enc cs os
          (st.carryover ++ p.normalized_text) p.page_number st.chunk_id
          (st.global_pos - st.carryover.length) now now'
        have htlen : (chunk_text enc cs os (st.carryover ++ p.normalized_text)
            p.page_number st.chunk_id (st.global_pos - st.carryover.length)
            now).1.length =
          (chunk_text enc cs os (st.carryover ++ p.normalized_text)
            p.page_number st.chunk_id (st.global_pos - st.carryover.length)
            now').1.length := congrArg List.length t1
        refine ⟨?_, ?_, ?_, rfl, t3⟩
        · simp only
          rw [h1, t1]
        · simp only [List.map_append]
          rw [h2, t2]
        · simp only
          rw [htlen]
    exact ih _ _ hstep.1 hstep.2.1 hstep.2.2.1 hstep.2.2.2.1 hstep.2.2.2.2

end Chunker

lemma suffix_eq_of_length {α : Type} {l s1 s2 : List α}
    (h1 : s1 <:+ l) (h2 : s2 <:+ l) (h : s1.length = s2.length) : s1 = s2 := by
  obtain ⟨t1, rfl⟩ := h1
  obtain ⟨t2, ht⟩ := h2
  have hlen : t1.length = t2.length := by
    have := congrArg List.length ht
    simp at this
    omega
  exact (List.append_inj ht.symm hlen).2

lemma reverse_take_suffix {α : Type} (l : List α) (j : Nat) :
    (l.reverse.take j).reverse <:+ l := by
  refine ⟨(l.reverse.drop j).reverse, ?_⟩
  rw [← List.reverse_append, List.take_append_drop, List.reverse_reverse]

/-! ### Concrete token counters used as instances of the pluggable
tokenization scheme (the source's tiktoken encoding is external; the spec
treats the scheme as swappable configuration). -/

/-- Token counter instance: one token per character. -/
def encLen : Str → Nat := List.length

/-- Token counter instance: one token per non-empty text. -/
def encOne : Str → Nat := fun _ => 1

/-- Helper for `wordCount`: the Boolean says whether the scan is inside a
word. -/
def wcAux : Bool → Str → Nat
  | _, [] => 0
  | inWord, c :: t =>
    if isWS c then wcAux false t else (if inWord then 0 else 1) + wcAux true t

/-- Token counter instance: one token per whitespace-separated word. -/
def wordCount (s : Str) : Nat := wcAux false s

/-- Token counter instance: one token per non-whitespace character. -/
def encNonWS (s : Str) : Nat := (s.filter fun c => !isWS c).length

lemma count_tokens_encNonWS (t : Str) :
    TokenCounter.count_tokens encNonWS t = encNonWS t := by
  by_cases h : t = []
  · rw [h]
    rfl
  · exact count_tokens_ne_nil encNonWS h

lemma encNonWS_append (a b : Str) : encNonWS (a ++ b) = encNonWS a + encNonWS b := by
  simp [encNonWS, List.filter_append]

lemma encNonWS_dropWhile (l : Str) : encNonWS (l.dropWhile isWS) = encNonWS l := by
  induction l with
  | nil => rfl
  | cons c t ih =>
    rw [List.dropWhile_cons]
    by_cases h : isWS c
    · rw [if_pos h, ih]
      simp [encNonWS, List.filter_cons, h]
    · rw [if_neg h]

lemma encNonWS_reverse (l : Str) : encNonWS l.reverse = encNonWS l := by
  simp [encNonWS, List.filter_reverse]

lemma encNonWS_trim (s : Str) : encNonWS (trim s) = encNonWS s := by
  unfold trim trimLeft
  rw [encNonWS_reverse, encNonWS_dropWhile, encNonWS_reverse, encNonWS_dropWhile]

lemma count_tokens_encNonWS_append (x y : Str) :
    TokenCounter.count_tokens encNonWS (x ++ y) =
      TokenCounter.count_tokens encNonWS x + TokenCounter.count_tokens encNonWS y := by
  rw [count_tokens_encNonWS, count_tokens_encNonWS, count_tokens_encNonWS,
    encNonWS_append]

lemma count_tokens_encNonWS_trim (x : Str) :
    TokenCounter.count_tokens encNonWS (trim x) =
      TokenCounter.count_tokens encNonWS x := by
  rw [count_tokens_encNonWS, count_tokens_encNonWS, encNonWS_trim]

lemma count_tokens_encOne_le (s : Str) : TokenCounter.count_tokens encOne s ≤ 1 := by
  by_cases h : s = []
  · rw [h]
    simp
  · rw [count_tokens_ne_nil encOne h]
    exact Nat.le_refl 1

lemma count_tokens_encOne_sub (x y : Str) :
    TokenCounter.count_tokens encOne (x ++ y) ≤
      TokenCounter.count_tokens encOne x + TokenCounter.count_tokens encOne y := by
  by_cases hx : x = []
  · rw [hx, List.nil_append]
    simp
  · rw [count_tokens_ne_nil encOne (by simp [hx]), count_tokens_ne_nil encOne hx]
    exact Nat.le_add_right 1 _

lemma count_tokens_encOne_trim (x : Str) :
    TokenCounter.count_tokens encOne (trim x) ≤ TokenCounter.count_tokens encOne x := by
  by_cases h : trim x = []
  · rw [h]
    simp
  · have hx : x ≠ [] := by
      intro h0
      rw [h0] at h
      exact h trim_nil
    rw [count_tokens_ne_nil encOne h, count_tokens_ne_nil encOne hx]
    exact Nat.le_refl 1

/-- Default metadata record (used only to read off elements of concrete
metadata lists by position). -/
def mdDefault : ChunkMeta :=
  MetadataHandler.create_chunk_metadata 0 [] 0 0 0 0 0 0 []

/-! ### The overlap tail as a sentence-aligned suffix (claims C4 and C10) -/

namespace Chunker

lemma split_into_sentences_nil : split_into_sentences ([] : Str) = [] := rfl

lemma get_overlap_suffix (enc : Str → Nat) (os : Nat) (ct : Str) :
    ∃ suf, suf <:+ split_into_sentences ct ∧
      get_overlap_text enc os ct = trim (tailJoin suf) ∧
      (suf = [] ∨ TokenCounter.count_tokens enc (tailJoin suf) ≤ os) ∧
      (∀ x, (x :: suf) <:+ split_into_sentences ct →
        os < TokenCounter.count_tokens enc (tailJoin (x :: suf))) := by
  by_cases hne : ct = []
  · refine ⟨[], List.nil_suffix, ?_, Or.inl rfl, ?_⟩
    · rw [hne]
      rfl
    · intro x hx
      rw [hne, split_into_sentences_nil] at hx
      have := hx.length_le
      simp at this
  · obtain ⟨j, hj, he, hb, hok⟩ :=
      overlapLoop_greedy enc os (split_into_sentences ct).reverse []
    have hjr : j ≤ (split_into_sentences ct).length := by
      rwa [List.length_reverse] at hj
    have hlensuf : ((split_into_sentences ct).reverse.take j).reverse.length = j := by
      rw [List.length_reverse, List.length_take, List.length_reverse]
      exact Nat.min_eq_left hjr
    refine ⟨((split_into_sentences ct).reverse.take j).reverse,
      reverse_take_suffix _ j, ?_, ?_, ?_⟩
    · unfold get_overlap_text
      rw [if_neg hne, he, pileUp_eq, List.append_nil]
    · rcases hok with h0 | hle
      · subst h0
        exact Or.inl (by simp)
      · right
        rw [pileUp_eq, List.append_nil] at hle
        exact hle
    · intro x hx
      by_cases hjl : j = (split_into_sentences ct).reverse.length
      · exfalso
        have hxle := hx.length_le
        rw [List.length_cons, hlensuf] at hxle
        rw [List.length_reverse] at hjl
        omega
      · rcases hb with h | h
        · exact absurd h hjl
        · rw [pileUp_eq, List.append_nil] at h
          have hj1 : j + 1 ≤ (split_into_sentences ct).length := by
            have := lt_of_le_of_ne hj hjl
            rw [List.length_reverse] at this
            omega
          have hx_eq : x :: ((split_into_sentences ct).reverse.take j).reverse =
              ((split_into_sentences ct).reverse.take (j + 1)).reverse := by
            apply suffix_eq_of_length hx (reverse_take_suffix _ (j + 1))
            rw [List.length_cons, hlensuf, List.length_reverse, List.length_take,
              List.length_reverse, Nat.min_eq_left hj1]
          rw [hx_eq]
          exact h

lemma get_overlap_empty_of_oversized_last (enc : Str → Nat) (os : Nat) (ct : Str)
    (s : Str) (rest : List Str)
    (hrev : (split_into_sentences ct).reverse = s :: rest)
    (hbig : os < TokenCounter.count_tokens enc (s ++ [' '])) :
    get_overlap_text enc os ct = [] := by
  by_cases hne : ct = []
  · rw [hne]
    rfl
  · unfold get_overlap_text
    rw [if_neg hne, hrev]
    have hnot : ¬ (TokenCounter.count_tokens enc (s ++ ' ' :: ([] : Str)) ≤ os) :=
      Nat.not_le.2 hbig
    simp [overlapLoop, hnot]

end Chunker

open Chunker TokenCounter MetadataHandler

/-! ## Claim theorems -/

/-- C1 (amended): when every sentence the splitter can produce fits the chunk
budget and the token counter is subadditive over concatenation and
non-increasing under trimming, every emitted chunk's recorded token count —
and the token count of its text — is at most
`chunk_token_budget + overlap_token_budget`.  The bound `chunk_token_budget`
alone does not hold (see the counterexample): the overlap seed plus the
sentence that triggered the previous finalization are combined unchecked. -/
theorem chunk_token_budget_bound (enc : Str → Nat) (cs os : Nat) (now : Str)
    (pages : List Page) (m : ChunkMeta) (c : Str)
    (hsent : ∀ t : Str, ∀ s ∈ split_into_sentences t, count_tokens enc s ≤ cs)
    (hsub : ∀ x y, count_tokens enc (x ++ y) ≤
      count_tokens enc x + count_tokens enc y)
    (htrim : ∀ x, count_tokens enc (trim x) ≤ count_tokens enc x)
    (hm : m ∈ (chunk_pages enc cs os now pages).metadata)
    (hc : c ∈ (chunk_pages enc cs os now pages).chunks) :
    m.token_count ≤ cs + os ∧ count_tokens enc c ≤ cs + os := by
  obtain ⟨hA, hB⟩ := runState_budget enc cs os now pages hsent hsub htrim
  constructor
  · rw [chunk_pages_metadata] at hm
    obtain ⟨m0, hm0, rfl⟩ := List.mem_map.1 hm
    exact hA m0 hm0
  · rw [chunk_pages_chunks] at hc
    exact hB c hc

/-- Witness for C1's amended theorem at a concrete run with the
one-token-per-text counter and budgets 1/1. -/
theorem chunk_token_budget_bound_witness :
    ((chunk_pages encOne 1 1 [] [⟨1, "a.".toList⟩]).metadata.getD 0
      mdDefault).token_count ≤ 1 + 1 ∧
    count_tokens encOne
      ((chunk_pages encOne 1 1 [] [⟨1, "a.".toList⟩]).chunks.getD 0 []) ≤ 1 + 1 :=
  chunk_token_budget_bound encOne 1 1 [] [⟨1, "a.".toList⟩] _ _
    (fun _ s _ => count_tokens_encOne_le s)
    count_tokens_encOne_sub
    count_tokens_encOne_trim
    (by decide) (by decide)

/-- Counterexample to C1 as stated: with the per-character counter and budgets
`chunk_token_budget = 5`, `overlap_token_budget = 4`, the single page
`"ab.abc."` yields a second chunk `"ab.abc."` whose sentences each fit the
budget (3 and 4 tokens) yet whose text counts 7 > 5 tokens: the chunk was
seeded with the overlap `"ab."` and the triggering sentence `"abc."` was
appended without a budget check. -/
theorem chunk_exceeds_budget_without_oversized_sentence :
    (∀ s ∈ split_into_sentences "ab.abc.".toList,
      count_tokens encLen s ≤ 5) ∧
    (chunk_pages encLen 5 4 [] [⟨1, "ab.abc.".toList⟩]).chunks.getD 1 [] =
      "ab.abc.".toList ∧
    ((chunk_pages encLen 5 4 [] [⟨1, "ab.abc.".toList⟩]).metadata.getD 1
      mdDefault).token_count = 7 ∧
    ¬ (count_tokens encLen
        ((chunk_pages encLen 5 4 [] [⟨1, "ab.abc.".toList⟩]).chunks.getD 1 []) ≤ 5) := by
  decide

/-- C2 (amended): for every run, each metadata record's `text_length` is the
length of the corresponding chunk text and
`end_position - start_position = text_length`; the monotonicity half of the
original claim fails (see the counterexample). -/
theorem chunk_positions_match_length (enc : Str → Nat) (cs os : Nat) (now : Str)
    (pages : List Page) :
    (chunk_pages enc cs os now pages).metadata.map (·.text_length) =
      (chunk_pages enc cs os now pages).chunks.map List.length ∧
    (chunk_pages enc cs os now pages).metadata.map
        (fun m => m.end_position - m.start_position) =
      (chunk_pages enc cs os now pages).metadata.map
        (fun m => (m.text_length : Int)) :=
  chunk_positions_span_text enc cs os now pages

/-- Counterexample to C2 as stated: with the per-character counter and budgets
7/6, the single page `"a.b.abc."` emits chunks whose start positions are
`[0, -1]` — the overlap re-joined with spaces is longer than the chunk it came
from, so the cursor moves backwards and `start_position` decreases. -/
theorem start_positions_not_monotone :
    ¬ List.Chain' (fun a b : ChunkMeta => a.start_position ≤ b.start_position)
      ((chunk_pages encLen 7 6 [] [⟨1, "a.b.abc.".toList⟩]).metadata) := by
  intro hchain
  have hmap : ((chunk_pages encLen 7 6 [] [⟨1, "a.b.abc.".toList⟩]).metadata.map
      (·.start_position)) = [0, -1] := by decide
  have h2 : List.Chain' (fun a b : Int => a ≤ b)
      ((chunk_pages encLen 7 6 [] [⟨1, "a.b.abc.".toList⟩]).metadata.map
        (·.start_position)) := (List.chain'_map _).2 hchain
  rw [hmap] at h2
  have h3 := (List.chain'_cons.1 h2).1
  omega

/-- C3: in every full run the emitted metadata carries `chunk_id`s forming
exactly the sequence 1, 2, 3, … in emission order with no gaps (also across
page boundaries), every record's `chunk_index` equals `chunk_id - 1`, and
chunks and metadata records correspond one to one. -/
theorem chunk_ids_are_consecutive (enc : Str → Nat) (cs os : Nat) (now : Str)
    (pages : List Page) :
    (chunk_pages enc cs os now pages).metadata.map (·.chunk_id) =
      List.range' 1 (chunk_pages enc cs os now pages).metadata.length ∧
    (chunk_pages enc cs os now pages).metadata.map (·.chunk_index) =
      (chunk_pages enc cs os now pages).metadata.map (fun m => m.chunk_id - 1) ∧
    (chunk_pages enc cs os now pages).chunks.length =
      (chunk_pages enc cs os now pages).metadata.length :=
  chunk_ids_consecutive enc cs os now pages

/-- C4: the overlap function returns the trimmed space-joined form of a suffix
of the chunk's sentences; whenever the suffix is non-empty its joined form is
within the overlap budget; extending the suffix by one more sentence would
exceed the budget (the greedy backward walk stops at the first failure); and
when even the single last sentence alone exceeds the overlap budget the
result is the empty string. -/
theorem overlap_greedy_suffix_contract (enc : Str → Nat) (os : Nat) (ct : Str) :
    (∃ suf, suf <:+ split_into_sentences ct ∧
      get_overlap_text enc os ct = trim (tailJoin suf) ∧
      (suf = [] ∨ count_tokens enc (tailJoin suf) ≤ os) ∧
      (∀ x, (x :: suf) <:+ split_into_sentences ct →
        os < count_tokens enc (tailJoin (x :: suf)))) ∧
    (∀ s rest, (split_into_sentences ct).reverse = s :: rest →
      os < count_tokens enc (s ++ [' ']) → get_overlap_text enc os ct = []) :=
  ⟨get_overlap_suffix enc os ct,
    fun s rest h1 h2 => get_overlap_empty_of_oversized_last enc os ct s rest h1 h2⟩

/-- C5 (amended): the run is a pure function of the pages, the configuration
and the sampled clock time: two runs with the same pages and budgets produce
identical chunk texts and identical metadata and summary except for the
`created_at` timestamps, which record the clock and differ between runs. -/
theorem run_deterministic_modulo_timestamp (enc : Str → Nat) (cs os : Nat)
    (now now' : Str) (pages : List Page) :
    (chunk_pages enc cs os now pages).chunks =
      (chunk_pages enc cs os now' pages).chunks ∧
    (chunk_pages enc cs os now pages).metadata.map eraseTime =
      (chunk_pages enc cs os now' pages).metadata.map eraseTime ∧
    eraseSummaryTime (chunk_pages enc cs os now pages).summary =
      eraseSummaryTime (chunk_pages enc cs os now' pages).summary := by
  obtain ⟨r1, r2, r3, r4, r5⟩ := foldl_pageStep_time enc cs os now now' pages
    initState initState rfl rfl rfl rfl rfl
  have r1' : (runState enc cs os now pages).all_chunks =
      (runState enc cs os now' pages).all_chunks := r1
  have r2' : (runState enc cs os now pages).metadata.map eraseTime =
      (runState enc cs os now' pages).metadata.map eraseTime := r2
  have hlen : (runState enc cs os now' pages).all_chunks.length =
      (runState enc cs os now pages).all_chunks.length :=
    (congrArg List.length r1').symm
  have hcomm : ∀ (l : List ChunkMeta) (t : Nat),
      (l.map fun m => { m with total_chunks := t }).map eraseTime =
        (l.map eraseTime).map (fun m => { m with total_chunks := t }) := by
    intro l t
    rw [List.map_map, List.map_map]
    exact List.map_congr_left fun m _ => rfl
  have htok : (runState enc cs os now' pages).metadata.map (·.token_count) =
      (runState enc cs os now pages).metadata.map (·.token_count) := by
    rw [← map_proj_eraseTime (·.token_count) (fun m => rfl), ← r2',
      map_proj_eraseTime (·.token_count) (fun m => rfl)]
  have htext : (runState enc cs os now' pages).metadata.map (·.text_length) =
      (runState enc cs os now pages).metadata.map (·.text_length) := by
    rw [← map_proj_eraseTime (·.text_length) (fun m => rfl), ← r2',
      map_proj_eraseTime (·.text_length) (fun m => rfl)]
  refine ⟨?_, ?_, ?_⟩
  · rw [chunk_pages_chunks, chunk_pages_chunks]
    exact r1'
  · rw [chunk_pages_metadata, chunk_pages_metadata, hcomm, hcomm, r2', hlen]
  · rw [chunk_pages_summary, chunk_pages_summary, eraseSummaryTime_create,
      eraseSummaryTime_create, hlen, htok, htext]

/-- Counterexample to C5 as stated: two runs on identical pages and identical
configuration but at different clock times produce different metadata records
(the `created_at` fields differ), so the output is not byte-identical across
runs. -/
theorem metadata_differs_across_timestamps :
    ¬ ((chunk_pages encLen 1000 150 "t1".toList [⟨1, "a.".toList⟩]).metadata =
       (chunk_pages encLen 1000 150 "t2".toList [⟨1, "a.".toList⟩]).metadata) := by
  decide

/-- C6: a run on a single page holding a single sentence whose token count
exceeds the chunk budget emits exactly one chunk containing that sentence
whole, and its recorded token count is the sentence's count, exceeding the
budget. -/
theorem single_oversized_sentence_single_chunk (enc : Str → Nat) (cs os : Nat)
    (now : Str) (text s : Str)
    (h1 : split_into_sentences text = [s])
    (h2 : cs < count_tokens enc s)
    (h3 : trim text ≠ []) :
    (chunk_pages enc cs os now [⟨1, text⟩]).chunks = [s] ∧
    (chunk_pages enc cs os now [⟨1, text⟩]).metadata.map (·.token_count) =
      [count_tokens enc s] ∧
    cs < count_tokens enc s := by
  have hsmem : s ∈ split_into_sentences text := by
    rw [h1]
    exact List.mem_cons_self s []
  obtain ⟨hts, hsne, -⟩ := sentence_props hsmem
  have hchunk : ∀ gs : Int, (chunk_text enc cs os text 1 1 gs now).1 = [s] ∧
      (chunk_text enc cs os text 1 1 gs now).2.1.map (·.token_count) =
        [count_tokens enc s] := by
    intro gs
    have hloop : chunkLoop enc cs os 1 gs now (split_into_sentences text)
        (initAcc 1) = ([], [], appendSentence enc s (initAcc 1)) := by
      rw [h1, chunkLoop_cons_neg (by simp), chunkLoop_nil]
    have hrem : trim (chunkLoop enc cs os 1 gs now (split_into_sentences text)
        (initAcc 1)).2.2.cur ≠ [] := by
      rw [hloop]
      simp only [appendSentence_def, initAcc_cur, initAcc_toks, List.nil_append]
      rw [hts]
      exact hsne
    rw [chunk_text_spec_pos hrem, hloop]
    constructor
    · simp [hts]
    · simp [hts]
  have hlive : ¬ trim ((⟨1, text⟩ : Page).normalized_text) = [] := h3
  have hrs : runState enc cs os now [⟨1, text⟩] =
      pageStep enc cs os now initState ⟨1, text⟩ := rfl
  refine ⟨?_, ?_, h2⟩
  · rw [chunk_pages_chunks, hrs, pageStep_live hlive]
    simp only [initState, List.nil_append]
    exact (hchunk _).1
  · rw [chunk_pages_metadata, hrs, pageStep_live hlive,
      map_backfill _ _ (fun m => rfl)]
    simp only [initState, List.nil_append]
    exact (hchunk _).2

/-- Witness for C6 at a concrete run: the page `"hello world"` is a single
sentence of 12 characters against a chunk budget of 3. -/
theorem single_oversized_sentence_single_chunk_witness :
    (chunk_pages encLen 3 2 [] [⟨1, "hello world".toList⟩]).chunks =
      ["hello world.".toList] ∧
    (chunk_pages encLen 3 2 [] [⟨1, "hello world".toList⟩]).metadata.map
      (·.token_count) = [count_tokens encLen "hello world.".toList] ∧
    3 < count_tokens encLen "hello world.".toList :=
  single_oversized_sentence_single_chunk encLen 3 2 [] "hello world".toList
    "hello world.".toList (by decide) (by decide) (by decide)

/-- C7 (amended): the recorded `token_count` equals the token counter applied
to the chunk's final text whenever the counter is additive over concatenation
and invariant under trimming; for a general counter the recorded value is the
running sum of per-sentence counts and can differ from the count of the text
(see the counterexample). -/
theorem token_count_exact_for_additive_counters (enc : Str → Nat) (cs os : Nat)
    (now : Str) (pages : List Page)
    (hadd : ∀ x y, count_tokens enc (x ++ y) =
      count_tokens enc x + count_tokens enc y)
    (htr : ∀ x, count_tokens enc (trim x) = count_tokens enc x) :
    (chunk_pages enc cs os now pages).metadata.map (·.token_count) =
      (chunk_pages enc cs os now pages).chunks.map (count_tokens enc) := by
  rw [chunk_pages_metadata, chunk_pages_chunks, map_backfill _ _ (fun m => rfl)]
  exact runState_exact enc cs os now pages hadd htr

/-- Witness for C7's amended theorem with the per-non-whitespace-character
counter, which is additive and trim-invariant. -/
theorem token_count_exact_witness :
    (chunk_pages encNonWS 8 3 [] [⟨1, "ab. cd.".toList⟩]).metadata.map
      (·.token_count) =
    (chunk_pages encNonWS 8 3 [] [⟨1, "ab. cd.".toList⟩]).chunks.map
      (count_tokens encNonWS) :=
  token_count_exact_for_additive_counters encNonWS 8 3 [] [⟨1, "ab. cd.".toList⟩]
    count_tokens_encNonWS_append count_tokens_encNonWS_trim

/-- Counterexample to C7 as stated: with the word counter, the page `"a.b."`
yields one chunk `"a.b."` with recorded token count 2 (the sum of the counts
of `"a."` and `"b."`), while the counter applied to the chunk's text gives 1
(the concatenation forms a single word). -/
theorem token_count_not_count_of_text :
    ¬ ((chunk_pages wordCount 1000 150 [] [⟨1, "a.b.".toList⟩]).metadata.map
        (·.token_count) =
      (chunk_pages wordCount 1000 150 [] [⟨1, "a.b.".toList⟩]).chunks.map
        (count_tokens wordCount)) := by
  decide

/-- C8: every sentence the splitter returns is non-empty after trimming
(indeed already trimmed) and ends in `.`, `!` or `?`. -/
theorem split_sentences_contract (t s : Str) (h : s ∈ split_into_sentences t) :
    trim s = s ∧ trim s ≠ [] ∧
      ∃ c, s.getLast? = some c ∧ (c = '.' ∨ c = '!' ∨ c = '?') := by
  obtain ⟨h1, h2, c, hc, hterm⟩ := sentence_props h
  refine ⟨h1, by rw [h1]; exact h2, c, hc, ?_⟩
  unfold isTerm at hterm
  simp only [Bool.or_eq_true, beq_iff_eq] at hterm
  tauto

/-- Witness for C8 at the input `"a b"`, whose single fragment gains a
synthesized terminator. -/
theorem split_sentences_contract_witness :
    trim "a b.".toList = "a b.".toList ∧ trim "a b.".toList ≠ [] ∧
      ∃ c, "a b.".toList.getLast? = some c ∧ (c = '.' ∨ c = '!' ∨ c = '?') :=
  split_sentences_contract "a b".toList "a b.".toList (by decide)

/-- C9: a page whose text is empty or whitespace-only is a no-op for the page
loop — it contributes no chunks and passes the whole state, carryover
included, through unchanged — so a run with such a page inserted produces the
same chunks and metadata as the run without it. -/
theorem blank_page_preserves_state (enc : Str → Nat) (cs os : Nat) (now : Str)
    (pg : Page) (st : RunState) (xs ys : List Page)
    (h : trim pg.normalized_text = []) :
    pageStep enc cs os now st pg = st ∧
    (chunk_pages enc cs os now (xs ++ pg :: ys)).chunks =
      (chunk_pages enc cs os now (xs ++ ys)).chunks ∧
    (chunk_pages enc cs os now (xs ++ pg :: ys)).metadata =
      (chunk_pages enc cs os now (xs ++ ys)).metadata := by
  have hrun : runState enc cs os now (xs ++ pg :: ys) =
      runState enc cs os now (xs ++ ys) := by
    unfold runState
    rw [List.foldl_append, List.foldl_append, List.foldl_cons, pageStep_blank h]
  refine ⟨pageStep_blank h, ?_, ?_⟩
  · rw [chunk_pages_chunks, chunk_pages_chunks, hrun]
  · rw [chunk_pages_metadata, chunk_pages_metadata, hrun]

/-- Witness for C9: a whitespace-only page between a real page and the end of
the document changes nothing in the chunks or metadata. -/
theorem blank_page_preserves_state_witness :
    pageStep encLen 1000 150 [] initState ⟨2, "  ".toList⟩ = initState ∧
    (chunk_pages encLen 1000 150 []
        ([⟨1, "a.".toList⟩] ++ (⟨2, "  ".toList⟩ : Page) :: [])).chunks =
      (chunk_pages encLen 1000 150 [] ([⟨1, "a.".toList⟩] ++ [])).chunks ∧
    (chunk_pages encLen 1000 150 []
        ([⟨1, "a.".toList⟩] ++ (⟨2, "  ".toList⟩ : Page) :: [])).metadata =
      (chunk_pages encLen 1000 150 [] ([⟨1, "a.".toList⟩] ++ [])).metadata :=
  blank_page_preserves_state encLen 1000 150 [] ⟨2, "  ".toList⟩ initState
    [⟨1, "a.".toList⟩] [] (by decide)

/-- C10: the overlap string re-joins the chunk's trailing sentences with a
single space (it is always the trimmed space-joined form of a sentence
suffix), whereas the chunk's own text concatenates sentences with no
separator; concretely, the chunk `"a.b."` produces the carryover `"a. b."`,
which is not a character-for-character suffix of the chunk it was computed
from. -/
theorem overlap_space_joined_not_suffix :
    (∀ (enc : Str → Nat) (os : Nat) (ct : Str), ∃ suf,
      suf <:+ split_into_sentences ct ∧
      get_overlap_text enc os ct = trim (tailJoin suf)) ∧
    split_into_sentences "a.b.".toList = ["a.".toList, "b.".toList] ∧
    get_overlap_text encLen 6 "a.b.".toList = "a. b.".toList ∧
    get_overlap_text encLen 6 "a.b.".toList =
      trim (tailJoin ["a.".toList, "b.".toList]) ∧
    (chunk_pages encLen 7 6 [] [⟨1, "a.b.".toList⟩]).chunks = ["a.b.".toList] ∧
    (runState encLen 7 6 [] [⟨1, "a.b.".toList⟩]).carryover = "a. b.".toList ∧
    ¬ ("a. b.".toList <:+ "a.b.".toList) := by
  refine ⟨?_, by decide, by decide, by decide, by decide, by decide, by decide⟩
  intro enc os ct
  obtain ⟨suf, hs, he, -, -⟩ := get_overlap_suffix enc os ct
  exact ⟨suf, hs, he⟩

end Stratos
